import Mathlib

/-!
Verification of the text-to-zip reconstructor (`convertTextToZipBlob`) and the
zip central-directory scanner (`getZipFileList`) from the repository's
script sources.  Text is modelled as `List Char`, byte buffers as `List Nat`
(each element a byte value), and fallible operations return `Except`/`Option`.
-/

/-- Predicate for the characters matched by the JavaScript regular expression
class backslash-s (whitespace): tab, linefeed, vertical tab, formfeed,
carriage return, space, NBSP, and the Unicode space separators. -/
def isJsWhitespace (c : Char) : Bool :=
  let n := c.toNat
  n = 9 || n = 10 || n = 11 || n = 12 || n = 13 || n = 32 || n = 160 ||
  n = 5760 || (8192 ≤ n && n ≤ 8202) || n = 8232 || n = 8233 ||
  n = 8239 || n = 8287 || n = 12288 || n = 65279

/-- ASCII whitespace as used by the forgiving-base64 decoder that underlies
the platform `atob` primitive: tab, LF, FF, CR, space. -/
def isAsciiWhitespace (c : Char) : Bool :=
  c.toNat = 9 || c.toNat = 10 || c.toNat = 12 || c.toNat = 13 || c.toNat = 32

/-- Index of a character in the standard RFC 4648 base64 alphabet
(A-Z, a-z, 0-9, plus, slash); `none` for any other character. -/
def b64Index (c : Char) : Option Nat :=
  if 65 ≤ c.toNat ∧ c.toNat ≤ 90 then some (c.toNat - 65)
  else if 97 ≤ c.toNat ∧ c.toNat ≤ 122 then some (c.toNat - 97 + 26)
  else if 48 ≤ c.toNat ∧ c.toNat ≤ 57 then some (c.toNat - 48 + 52)
  else if c = '+' then some 62
  else if c = '/' then some 63
  else none

/-- Character of the standard RFC 4648 base64 alphabet at a given index. -/
def b64Char (n : Nat) : Char :=
  if n < 26 then Char.ofNat (n + 65)
  else if n < 52 then Char.ofNat (n - 26 + 97)
  else if n < 62 then Char.ofNat (n - 52 + 48)
  else if n = 62 then '+'
  else '/'

/-- Helper for `splitLines`: push a character onto the front of the first
line of an already-split tail. -/
def consHead (c : Char) : List (List Char) → List (List Char)
  | [] => [[c]]
  | l :: ls => (c :: l) :: ls

/-- Embedding of `textContent.split(/\r?\n/)`: split a character list at
every bare linefeed and at every carriage-return-plus-linefeed pair.
Splitting the empty text yields one empty line, as in JavaScript. -/
def splitLines : List Char → List (List Char)
  | [] => [[]]
  | '\n' :: rest => [] :: splitLines rest
  | '\r' :: '\n' :: rest => [] :: splitLines rest
  | '\r' :: rest => consHead '\r' (splitLines rest)
  | c :: rest => consHead c (splitLines rest)

/-- Decode one final base64 quantum of 2, 3 or 4 sextets into 1, 2 or 3
bytes, discarding leftover bits as the forgiving decoder does. -/
def b64DecodeQuantum : List Nat → List Nat
  | [a, b] => [a * 4 + b / 16]
  | [a, b, c] => [a * 4 + b / 16, (b % 16) * 16 + c / 4]
  | [a, b, c, d] => [a * 4 + b / 16, (b % 16) * 16 + c / 4, (c % 4) * 64 + d]
  | _ => []

/-- Decode a list of base64 sextet values into bytes, 4 sextets to 3 bytes,
with a shorter final quantum handled by `b64DecodeQuantum`. -/
def b64DecodeSextets : List Nat → List Nat
  | a :: b :: c :: d :: rest => b64DecodeQuantum [a, b, c, d] ++ b64DecodeSextets rest
  | rest => b64DecodeQuantum rest

/-- Remove the trailing padding of a base64 string the way the forgiving
decoder does: only when the length is a multiple of 4, remove one or two
trailing equals signs. -/
def stripPad (l : List Char) : List Char :=
  if l.length % 4 = 0 then
    if l.reverse.take 2 = ['=', '='] then l.dropLast.dropLast
    else if l.reverse.take 1 = ['='] then l.dropLast
    else l
  else l

/-- Embedding of the platform `atob` primitive (forgiving-base64 decode):
strip ASCII whitespace, strip permissible trailing padding, fail when the
remaining length is 1 mod 4 or any character is outside the base64
alphabet, and otherwise decode sextets to bytes. -/
def atob (s : List Char) : Option (List Nat) :=
  let data := s.filter (fun c => !(isAsciiWhitespace c))
  let data2 := stripPad data
  if data2.length % 4 = 1 then none
  else if data2.all (fun c => (b64Index c).isSome) then
    some (b64DecodeSextets (data2.map (fun c => (b64Index c).getD 0)))
  else none

/-- Failure kinds of the reconstructor: the empty-after-stripping failure
and the base64-decoding failure. -/
inductive ConvError : Type
  | emptyInput : ConvError
  | invalidEncoding : ConvError
deriving DecidableEq

/-- Embedding of `convertTextToZipBlob` from the script source: split the
text into lines on CRLF or LF, reverse the lines, join them, remove all
whitespace, fail on empty, then base64-decode; a decoding failure is
reported as `invalidEncoding`. -/
def convertTextToZipBlob (text : List Char) : Except ConvError (List Nat) :=
  let lines := splitLines text
  let reversedLines := lines.reverse
  let joined := reversedLines.flatten
  let base64String := joined.filter (fun c => !(isJsWhitespace c))
  if base64String = [] then .error .emptyInput
  else
    match atob base64String with
    | some bytes => .ok bytes
    | none => .error .invalidEncoding

/-- Read `n` bytes at offset `off` of the buffer as a little-endian
unsigned integer, the shape of the `DataView.getUint16`/`getUint32` calls
(out-of-range positions read as 0; the checked variants below show every
actual read is in bounds). -/
def readLE (buf : List Nat) : Nat → Nat → Nat
  | _, 0 => 0
  | off, n + 1 => buf.getD off 0 + 256 * readLE buf (off + 1) n

/-- Backward scan of the EOCD search loop: starting at offset `i` and
stepping down, try `count` candidate offsets, returning the first offset
whose 4 little-endian bytes equal the EOCD signature `0x06054B50`. -/
def scanBack (buf : List Nat) : Nat → Nat → Option Nat
  | _, 0 => none
  | i, count + 1 =>
    if readLE buf i 4 = 0x06054B50 then some i
    else scanBack buf (i - 1) count

/-- Locate the End Of Central Directory record: scan backward from offset
`length - 22` over the last `min length 65557` bytes.  The iteration count
`min length 65557 - 21` is zero exactly when the buffer is shorter than 22
bytes, in which case the JavaScript loop never runs (its start index is
negative). -/
def findEocd (buf : List Nat) : Option Nat :=
  scanBack buf (buf.length - 22) (min buf.length 65557 - 21)

/-- Unicode replacement character U+FFFD. -/
def replChar : Char := Char.ofNat 0xFFFD

/-- Embedding of `new TextDecoder("utf-8").decode`: the WHATWG UTF-8
decoder with replacement on error.  A byte that fails a continuation-range
check is reprocessed after emitting one replacement character; end of
input inside a sequence emits one replacement character. -/
def utf8Decode : List Nat → List Char
  | [] => []
  | b :: rest =>
    if b < 0x80 then Char.ofNat b :: utf8Decode rest
    else if 0xC2 ≤ b ∧ b ≤ 0xDF then
      match rest with
      | [] => [replChar]
      | c :: rest2 =>
        if 0x80 ≤ c ∧ c ≤ 0xBF then
          Char.ofNat ((b - 0xC0) * 0x40 + (c - 0x80)) :: utf8Decode rest2
        else replChar :: utf8Decode (c :: rest2)
    else if 0xE0 ≤ b ∧ b ≤ 0xEF then
      match rest with
      | [] => [replChar]
      | c :: rest2 =>
        if (if b = 0xE0 then 0xA0 ≤ c ∧ c ≤ 0xBF
            else if b = 0xED then 0x80 ≤ c ∧ c ≤ 0x9F
            else 0x80 ≤ c ∧ c ≤ 0xBF) then
          match rest2 with
          | [] => [replChar]
          | d :: rest3 =>
            if 0x80 ≤ d ∧ d ≤ 0xBF then
              Char.ofNat ((b - 0xE0) * 0x1000 + (c - 0x80) * 0x40 + (d - 0x80)) :: utf8Decode rest3
            else replChar :: utf8Decode (d :: rest3)
        else replChar :: utf8Decode (c :: rest2)
    else if 0xF0 ≤ b ∧ b ≤ 0xF4 then
      match rest with
      | [] => [replChar]
      | c :: rest2 =>
        if (if b = 0xF0 then 0x90 ≤ c ∧ c ≤ 0xBF
            else if b = 0xF4 then 0x80 ≤ c ∧ c ≤ 0x8F
            else 0x80 ≤ c ∧ c ≤ 0xBF) then
          match rest2 with
          | [] => [replChar]
          | d :: rest3 =>
            if 0x80 ≤ d ∧ d ≤ 0xBF then
              match rest3 with
              | [] => [replChar]
              | e :: rest4 =>
                if 0x80 ≤ e ∧ e ≤ 0xBF then
                  Char.ofNat ((b - 0xF0) * 0x40000 + (c - 0x80) * 0x1000 +
                    (d - 0x80) * 0x40 + (e - 0x80)) :: utf8Decode rest4
                else replChar :: utf8Decode (e :: rest4)
            else replChar :: utf8Decode (d :: rest3)
        else replChar :: utf8Decode (c :: rest2)
    else replChar :: utf8Decode rest

/-- Name field of the central-directory header at offset `off`: the
name-length bytes starting at `off + 46`, clamped to the end of the buffer
exactly as `Uint8Array.subarray` clamps. -/
def nameField (buf : List Nat) (off : Nat) : List Nat :=
  (buf.drop (off + 46)).take (readLE buf (off + 28) 2)

/-- Cursor advance of one central-directory header: 46 fixed bytes plus the
name, extra-field and comment lengths read from the header. -/
def nextHeader (buf : List Nat) (off : Nat) : Nat :=
  off + 46 + readLE buf (off + 28) 2 + readLE buf (off + 30) 2 + readLE buf (off + 32) 2

/-- Embedding of the central-directory walk of `getZipFileList`: up to the
declared entry count, stop when the 46-byte fixed prefix would overrun the
buffer or the header signature `0x02014B50` is wrong, otherwise decode the
name field as UTF-8 and advance the cursor. -/
def walkCD (buf : List Nat) : Nat → Nat → List (List Char)
  | _, 0 => []
  | off, n + 1 =>
    if off + 46 > buf.length then []
    else if readLE buf off 4 ≠ 0x02014B50 then []
    else utf8Decode (nameField buf off) :: walkCD buf (nextHeader buf off) n

/-- Embedding of `getZipFileList`: locate the EOCD, read the entry count at
EOCD offset + 10 and the central-directory start at EOCD offset + 16, and
walk the central directory; no EOCD yields the empty list. -/
def getZipFileList (buf : List Nat) : List (List Char) :=
  match findEocd buf with
  | none => []
  | some e => walkCD buf (readLE buf (e + 16) 4) (readLE buf (e + 10) 2)

/-! ### Properties of the EOCD backward scan -/

/-- Characterization of a successful backward scan: the returned offset is
inside the scanned range, carries the signature, and no higher offset in
the range carries it. -/
theorem scanBack_some (buf : List Nat) :
    ∀ c i j, scanBack buf i c = some j →
      j ≤ i ∧ i < j + c ∧ readLE buf j 4 = 0x06054B50 ∧
      ∀ k, j < k → k ≤ i → readLE buf k 4 ≠ 0x06054B50 := by
  intro c
  induction c with
  | zero => intro i j h; simp [scanBack] at h
  | succ c ih =>
    intro i j h
    rw [scanBack] at h
    by_cases hs : readLE buf i 4 = 0x06054B50
    · rw [if_pos hs] at h
      obtain rfl : i = j := by injection h
      exact ⟨le_refl _, by omega, hs, fun k hk1 hk2 _ => by omega⟩
    · rw [if_neg hs] at h
      obtain ⟨h1, h2, h3, h4⟩ := ih (i - 1) j h
      refine ⟨by omega, by omega, h3, ?_⟩
      intro k hk1 hk2
      by_cases hki : k = i
      · exact hki ▸ hs
      · exact h4 k hk1 (by omega)

/-- Characterization of a failed backward scan: no offset in the scanned
range carries the signature. -/
theorem scanBack_none (buf : List Nat) :
    ∀ c i, scanBack buf i c = none →
      ∀ k, k ≤ i → i < k + c → readLE buf k 4 ≠ 0x06054B50 := by
  intro c
  induction c with
  | zero => intro i _ k _ _; omega
  | succ c ih =>
    intro i h k hk1 hk2
    rw [scanBack] at h
    by_cases hs : readLE buf i 4 = 0x06054B50
    · rw [if_pos hs] at h; exact absurd h (by simp)
    · rw [if_neg hs] at h
      by_cases hki : k = i
      · exact hki ▸ hs
      · exact ih (i - 1) h k (by omega) (by omega)

/-- Claim C10 (theorem): any buffer shorter than 22 bytes makes the EOCD
scan's iteration count zero, so no candidate offset is examined, the EOCD
is not found, and the scan returns the empty list. -/
theorem shortBuffer_empty (buf : List Nat) (h : buf.length < 22) :
    min buf.length 65557 - 21 = 0 ∧ findEocd buf = none ∧ getZipFileList buf = [] := by
  have hc : min buf.length 65557 - 21 = 0 := by omega
  have he : findEocd buf = none := by
    unfold findEocd; rw [hc]; rfl
  exact ⟨hc, he, by unfold getZipFileList; rw [he]⟩

/-- Claim C10 (witness): a concrete 3-byte buffer. -/
theorem shortBuffer_empty_witness :
    min ([5, 6, 7] : List Nat).length 65557 - 21 = 0 ∧
      findEocd [5, 6, 7] = none ∧ getZipFileList [5, 6, 7] = [] :=
  shortBuffer_empty [5, 6, 7] (by decide)

/-- Claim C3 (theorem): the EOCD search examines offsets from length − 22
down to length − min(length, 65557); when it returns an offset, that
offset is in the window, carries the little-endian signature 0x06054B50,
and is the highest such offset in the window; when no offset in the window
matches, the scan returns the empty list with no further parsing. -/
theorem eocdLocation (buf : List Nat) :
    (∀ e, findEocd buf = some e →
      22 ≤ buf.length ∧
      buf.length - min buf.length 65557 ≤ e ∧
      e + 22 ≤ buf.length ∧
      readLE buf e 4 = 0x06054B50 ∧
      ∀ j, e < j → j + 22 ≤ buf.length → readLE buf j 4 ≠ 0x06054B50) ∧
    (findEocd buf = none →
      (∀ j, j + 22 ≤ buf.length → buf.length ≤ j + 65557 →
        readLE buf j 4 ≠ 0x06054B50) ∧
      getZipFileList buf = []) := by
  constructor
  · intro e h
    unfold findEocd at h
    have hc : min buf.length 65557 - 21 ≠ 0 := by
      intro hz; rw [hz] at h; simp [scanBack] at h
    obtain ⟨h1, h2, h3, h4⟩ := scanBack_some buf _ _ _ h
    refine ⟨by omega, by omega, by omega, h3, ?_⟩
    intro j hj1 hj2
    exact h4 j hj1 (by omega)
  · intro h
    refine ⟨?_, by unfold getZipFileList; rw [h]⟩
    intro j hj1 hj2
    unfold findEocd at h
    exact scanBack_none buf _ _ h j (by omega) (by omega)

/-- Claim C3 (witness): on a concrete buffer holding two EOCD signatures in
the window, the scan locates the one closest to the end (offset 10, not
offset 0), and that offset satisfies the window bounds. -/
theorem eocdLocation_witness :
    findEocd ([0x50, 0x4B, 0x05, 0x06, 0, 0, 0, 0, 0, 0,
               0x50, 0x4B, 0x05, 0x06, 0, 0, 0, 0, 0, 0,
               0, 0, 0, 0, 0, 0, 0, 0, 0, 0, 0, 0] : List Nat) = some 10 ∧
    readLE [0x50, 0x4B, 0x05, 0x06, 0, 0, 0, 0, 0, 0,
            0x50, 0x4B, 0x05, 0x06, 0, 0, 0, 0, 0, 0,
            0, 0, 0, 0, 0, 0, 0, 0, 0, 0, 0, 0] 10 4 = 0x06054B50 ∧
    (10 : Nat) + 22 ≤ 32 := by
  have h : findEocd ([0x50, 0x4B, 0x05, 0x06, 0, 0, 0, 0, 0, 0,
               0x50, 0x4B, 0x05, 0x06, 0, 0, 0, 0, 0, 0,
               0, 0, 0, 0, 0, 0, 0, 0, 0, 0, 0, 0] : List Nat) = some 10 := by decide
  have h2 := ((eocdLocation ([0x50, 0x4B, 0x05, 0x06, 0, 0, 0, 0, 0, 0,
               0x50, 0x4B, 0x05, 0x06, 0, 0, 0, 0, 0, 0,
               0, 0, 0, 0, 0, 0, 0, 0, 0, 0, 0, 0] : List Nat)).1 10 h)
  exact ⟨h, h2.2.2.2.1, by omega⟩

/-! ### Totality of the scanner: every DataView read is in bounds -/

/-- Checked little-endian read: `none` models the RangeError a
`DataView.getUint16`/`getUint32` call would throw out of bounds. -/
def readLEChecked (buf : List Nat) (off n : Nat) : Option Nat :=
  if off + n ≤ buf.length then some (readLE buf off n) else none

/-- Checked variant of the EOCD backward scan, propagating a read failure
as `none`; `some none` means the loop finished without a match. -/
def scanBackChecked (buf : List Nat) : Nat → Nat → Option (Option Nat)
  | _, 0 => some none
  | i, count + 1 =>
    match readLEChecked buf i 4 with
    | none => none
    | some v =>
      if v = 0x06054B50 then some (some i)
      else scanBackChecked buf (i - 1) count

/-- Checked variant of the central-directory walk, propagating any
out-of-bounds header-field read as `none`. -/
def walkCDChecked (buf : List Nat) : Nat → Nat → Option (List (List Char))
  | _, 0 => some []
  | off, n + 1 =>
    if off + 46 > buf.length then some []
    else
      match readLEChecked buf off 4 with
      | none => none
      | some sig =>
        if sig ≠ 0x02014B50 then some []
        else
          match readLEChecked buf (off + 28) 2, readLEChecked buf (off + 30) 2,
              readLEChecked buf (off + 32) 2 with
          | some nm, some ex, some cm =>
            match walkCDChecked buf (off + 46 + nm + ex + cm) n with
            | some rest => some (utf8Decode ((buf.drop (off + 46)).take nm) :: rest)
            | none => none
          | _, _, _ => none

/-- Checked variant of `getZipFileList`: every `DataView` read of the
original is performed through `readLEChecked`, so a `none` result marks an
input on which the original would have thrown. -/
def getZipFileListChecked (buf : List Nat) : Option (List (List Char)) :=
  match scanBackChecked buf (buf.length - 22) (min buf.length 65557 - 21) with
  | none => none
  | some none => some []
  | some (some e) =>
    match readLEChecked buf (e + 10) 2, readLEChecked buf (e + 16) 4 with
    | some count, some cdOff => walkCDChecked buf cdOff count
    | _, _ => none

/-- The checked EOCD scan never fails while the candidate offset stays at
least 4 bytes inside the buffer and the remaining count stays below it. -/
theorem scanBackChecked_eq (buf : List Nat) :
    ∀ c i, i + 4 ≤ buf.length → c ≤ i + 1 →
      scanBackChecked buf i c = some (scanBack buf i c) := by
  intro c
  induction c with
  | zero => intro i _ _; rfl
  | succ c ih =>
    intro i h1 h2
    rw [scanBackChecked, scanBack, readLEChecked, if_pos h1]
    dsimp only
    by_cases hs : readLE buf i 4 = 0x06054B50
    · rw [if_pos hs, if_pos hs]
    · rw [if_neg hs, if_neg hs]
      exact ih (i - 1) (by omega) (by omega)

/-- The checked central-directory walk never fails: the 46-byte bounds
check precedes every header-field read. -/
theorem walkCDChecked_eq (buf : List Nat) :
    ∀ n off, walkCDChecked buf off n = some (walkCD buf off n) := by
  intro n
  induction n with
  | zero => intro off; rfl
  | succ n ih =>
    intro off
    rw [walkCDChecked, walkCD]
    by_cases hb : off + 46 > buf.length
    · rw [if_pos hb, if_pos hb]
    · rw [if_neg hb, if_neg hb]
      have h4 : off + 4 ≤ buf.length := by omega
      rw [readLEChecked, if_pos h4]
      dsimp only
      by_cases hs : readLE buf off 4 ≠ 0x02014B50
      · rw [if_pos hs, if_pos hs]
      · rw [if_neg hs, if_neg hs]
        rw [readLEChecked, if_pos (by omega : off + 28 + 2 ≤ buf.length),
          readLEChecked, if_pos (by omega : off + 30 + 2 ≤ buf.length),
          readLEChecked, if_pos (by omega : off + 32 + 2 ≤ buf.length)]
        dsimp only
        rw [ih]
        simp only [nameField, nextHeader]

/-- Claim C2 (theorem): the scanner is total.  On every buffer the checked
scanner, which tracks each read's bounds, succeeds and returns exactly the
result of `getZipFileList`; no structural anomaly can surface as an
exception. -/
theorem scanTotal (buf : List Nat) :
    getZipFileListChecked buf = some (getZipFileList buf) := by
  unfold getZipFileListChecked getZipFileList findEocd
  by_cases hlen : buf.length < 22
  · have hc : min buf.length 65557 - 21 = 0 := by omega
    rw [hc]
    rfl
  · have hsb := scanBackChecked_eq buf (min buf.length 65557 - 21)
      (buf.length - 22) (by omega) (by omega)
    rw [hsb]
    cases h : scanBack buf (buf.length - 22) (min buf.length 65557 - 21) with
    | none => rfl
    | some e =>
      obtain ⟨h1, _, _, _⟩ := scanBack_some buf _ _ _ h
      dsimp only
      rw [readLEChecked, if_pos (by omega : e + 10 + 2 ≤ buf.length),
        readLEChecked, if_pos (by omega : e + 16 + 4 ≤ buf.length)]
      exact walkCDChecked_eq buf _ _

/-! ### Characterization of the central-directory walk -/

/-- Offsets of the headers the walk accepts, paired with the cursor value
at which the walk stopped (by exhausting the count or failing a check). -/
def walkOffsets (buf : List Nat) : Nat → Nat → List Nat × Nat
  | off, 0 => ([], off)
  | off, n + 1 =>
    if off + 46 > buf.length then ([], off)
    else if readLE buf off 4 ≠ 0x02014B50 then ([], off)
    else
      (off :: (walkOffsets buf (nextHeader buf off) n).1,
        (walkOffsets buf (nextHeader buf off) n).2)

/-- The walk returns exactly one decoded name per accepted header offset. -/
theorem walkCD_eq_map (buf : List Nat) :
    ∀ n off, walkCD buf off n =
      (walkOffsets buf off n).1.map (fun o => utf8Decode (nameField buf o)) := by
  intro n
  induction n with
  | zero => intro off; rfl
  | succ n ih =>
    intro off
    rw [walkCD, walkOffsets]
    by_cases hb : off + 46 > buf.length
    · rw [if_pos hb, if_pos hb]; rfl
    · rw [if_neg hb, if_neg hb]
      by_cases hs : readLE buf off 4 ≠ 0x02014B50
      · rw [if_pos hs, if_pos hs]; rfl
      · rw [if_neg hs, if_neg hs]
        simp only [List.map_cons, ih]

/-- The walk accepts at most the declared number of headers. -/
theorem walkOffsets_length (buf : List Nat) :
    ∀ n off, (walkOffsets buf off n).1.length ≤ n := by
  intro n
  induction n with
  | zero => intro off; simp [walkOffsets]
  | succ n ih =>
    intro off
    rw [walkOffsets]
    by_cases hb : off + 46 > buf.length
    · rw [if_pos hb]; simp
    · rw [if_neg hb]
      by_cases hs : readLE buf off 4 ≠ 0x02014B50
      · rw [if_pos hs]; simp
      · rw [if_neg hs]
        simpa using ih (nextHeader buf off)

/-- Every accepted header passed the bounds check and the signature check. -/
theorem walkOffsets_mem (buf : List Nat) :
    ∀ n off o, o ∈ (walkOffsets buf off n).1 →
      o + 46 ≤ buf.length ∧ readLE buf o 4 = 0x02014B50 := by
  intro n
  induction n with
  | zero => intro off o h; simp [walkOffsets] at h
  | succ n ih =>
    intro off o h
    rw [walkOffsets] at h
    by_cases hb : off + 46 > buf.length
    · rw [if_pos hb] at h; simp at h
    · rw [if_neg hb] at h
      by_cases hs : readLE buf off 4 ≠ 0x02014B50
      · rw [if_pos hs] at h; simp at h
      · rw [if_neg hs] at h
        simp only [List.mem_cons] at h
        rcases h with rfl | h
        · exact ⟨by omega, by omega⟩
        · exact ih (nextHeader buf off) o h

/-- When the walk stops short of the declared count, the check at the
final cursor failed: either the 46-byte prefix overruns the buffer or the
signature is wrong. -/
theorem walkOffsets_stop (buf : List Nat) :
    ∀ n off, (walkOffsets buf off n).1.length < n →
      buf.length < (walkOffsets buf off n).2 + 46 ∨
        readLE buf (walkOffsets buf off n).2 4 ≠ 0x02014B50 := by
  intro n
  induction n with
  | zero => intro off h; omega
  | succ n ih =>
    intro off h
    rw [walkOffsets] at h ⊢
    by_cases hb : off + 46 > buf.length
    · rw [if_pos hb] at h ⊢; left; simpa using hb
    · rw [if_neg hb] at h ⊢
      by_cases hs : readLE buf off 4 ≠ 0x02014B50
      · rw [if_pos hs] at h ⊢; right; simpa using hs
      · rw [if_neg hs] at h ⊢
        simp only [List.length_cons] at h
        exact ih (nextHeader buf off) (by omega)

/-- Claim C5 (theorem): fail-soft truncation.  Whenever an EOCD is found,
the scan result is exactly one decoded name per header accepted by the
bounds-and-signature checks, never more than the declared count; every
accepted header lies within bounds with a valid signature; and if fewer
names than declared are returned, the walk stopped because the cursor plus
46 overran the buffer or the header signature check failed there. -/
theorem failSoftTruncation (buf : List Nat) (e : Nat) (h : findEocd buf = some e) :
    getZipFileList buf =
      ((walkOffsets buf (readLE buf (e + 16) 4) (readLE buf (e + 10) 2)).1).map
        (fun o => utf8Decode (nameField buf o)) ∧
    (getZipFileList buf).length ≤ readLE buf (e + 10) 2 ∧
    (∀ o ∈ (walkOffsets buf (readLE buf (e + 16) 4) (readLE buf (e + 10) 2)).1,
      o + 46 ≤ buf.length ∧ readLE buf o 4 = 0x02014B50) ∧
    ((getZipFileList buf).length < readLE buf (e + 10) 2 →
      buf.length < (walkOffsets buf (readLE buf (e + 16) 4) (readLE buf (e + 10) 2)).2 + 46 ∨
        readLE buf (walkOffsets buf (readLE buf (e + 16) 4) (readLE buf (e + 10) 2)).2 4 ≠
          0x02014B50) := by
  have hg : getZipFileList buf = walkCD buf (readLE buf (e + 16) 4) (readLE buf (e + 10) 2) := by
    unfold getZipFileList; rw [h]
  have hmap := walkCD_eq_map buf (readLE buf (e + 10) 2) (readLE buf (e + 16) 4)
  have hlen : (getZipFileList buf).length =
      ((walkOffsets buf (readLE buf (e + 16) 4) (readLE buf (e + 10) 2)).1).length := by
    rw [hg, hmap, List.length_map]
  refine ⟨by rw [hg, hmap], ?_, walkOffsets_mem buf _ _, ?_⟩
  · rw [hlen]; exact walkOffsets_length buf _ _
  · intro hlt
    exact walkOffsets_stop buf _ _ (by omega)

/-- Concrete buffer for the truncation witness: one valid 47-byte header
with name "a", followed by an EOCD that declares two entries. -/
def zipBufTrunc : List Nat :=
  [0x50, 0x4B, 0x01, 0x02] ++ List.replicate 24 0 ++ [1, 0] ++ [0, 0] ++ [0, 0] ++
    List.replicate 12 0 ++ [97] ++
  [0x50, 0x4B, 0x05, 0x06] ++ List.replicate 4 0 ++ [2, 0] ++ [2, 0] ++
    List.replicate 4 0 ++ [0, 0, 0, 0] ++ [0, 0]

/-- Claim C5 (witness): on the concrete truncated buffer the EOCD declares
2 entries, the scan returns the single name "a", and the walk stopped at a
failing check. -/
theorem failSoftTruncation_witness :
    getZipFileList zipBufTrunc = [['a']] ∧
    readLE zipBufTrunc (47 + 10) 2 = 2 ∧
    (getZipFileList zipBufTrunc).length ≤ readLE zipBufTrunc (47 + 10) 2 ∧
    ((getZipFileList zipBufTrunc).length < readLE zipBufTrunc (47 + 10) 2 →
      zipBufTrunc.length <
        (walkOffsets zipBufTrunc (readLE zipBufTrunc (47 + 16) 4)
          (readLE zipBufTrunc (47 + 10) 2)).2 + 46 ∨
        readLE zipBufTrunc
          (walkOffsets zipBufTrunc (readLE zipBufTrunc (47 + 16) 4)
            (readLE zipBufTrunc (47 + 10) 2)).2 4 ≠ 0x02014B50) := by
  have h := failSoftTruncation zipBufTrunc 47 (by decide)
  exact ⟨by decide, by decide, h.2.1, h.2.2.2⟩

/-! ### Header-level properties of the walk -/

/-- Claim C8 (theorem): a header whose 46-byte fixed prefix is in bounds
and whose signature is valid, but whose name field extends past the end of
the buffer, still contributes an entry; its name is decoded from exactly
the in-bounds portion of the name bytes (the `subarray` clamp), and the
walk continues at the advanced cursor, stopping only at a later
iteration's checks. -/
theorem clampedName (buf : List Nat) (off n : Nat)
    (h1 : off + 46 ≤ buf.length)
    (h2 : readLE buf off 4 = 0x02014B50)
    (h3 : buf.length < off + 46 + readLE buf (off + 28) 2) :
    nameField buf off = buf.drop (off + 46) ∧
    walkCD buf off (n + 1) =
      utf8Decode (buf.drop (off + 46)) :: walkCD buf (nextHeader buf off) n := by
  have hname : nameField buf off = buf.drop (off + 46) := by
    unfold nameField
    apply List.take_of_length_le
    rw [List.length_drop]
    omega
  refine ⟨hname, ?_⟩
  rw [walkCD, if_neg (by omega), if_neg (by simp [h2]), hname]

/-- Concrete buffer for the clamp witness: a single header whose declared
name length is 5 but only the 2 bytes "ab" remain in the buffer. -/
def zipBufClamp : List Nat :=
  [0x50, 0x4B, 0x01, 0x02] ++ List.replicate 24 0 ++ [5, 0] ++ [0, 0] ++ [0, 0] ++
    List.replicate 12 0 ++ [97, 98]

/-- Claim C8 (witness): on the concrete buffer the walk yields one entry
whose name is the truncated "ab". -/
theorem clampedName_witness :
    nameField zipBufClamp 0 = [97, 98] ∧
    walkCD zipBufClamp 0 1 = [['a', 'b']] := by
  have h := clampedName zipBufClamp 0 0 (by decide) (by decide) (by decide)
  refine ⟨by rw [h.1]; decide, by rw [h.2]; decide⟩

/-- The WHATWG replacement decoder never maps a nonempty byte sequence to
an empty text: every lead byte yields at least one character (possibly
U+FFFD), so no name is skipped. -/
theorem utf8Decode_ne_nil (bs : List Nat) (h : bs ≠ []) : utf8Decode bs ≠ [] := by
  match bs with
  | [] => exact absurd rfl h
  | b :: rest =>
    rw [utf8Decode.eq_def]
    dsimp only
    repeat' split
    all_goals simp

/-- Claim C9 (theorem): an accepted header always contributes exactly one
name.  The walk step appends the (total, lossy) UTF-8 decoding of the name
field and advances the cursor by 46 plus the three variable lengths; the
number of returned names always equals the number of accepted headers; and
the decoder never maps a nonempty name field to nothing, so no accepted
entry is skipped. -/
theorem lossyNameStep (buf : List Nat) (off n : Nat)
    (h1 : off + 46 ≤ buf.length)
    (h2 : readLE buf off 4 = 0x02014B50) :
    walkCD buf off (n + 1) =
      utf8Decode (nameField buf off) ::
        walkCD buf (off + 46 + readLE buf (off + 28) 2 + readLE buf (off + 30) 2 +
          readLE buf (off + 32) 2) n ∧
    (∀ k cur, (walkCD buf cur k).length = (walkOffsets buf cur k).1.length) ∧
    (∀ bs : List Nat, bs ≠ [] → utf8Decode bs ≠ []) := by
  refine ⟨?_, ?_, utf8Decode_ne_nil⟩
  · rw [walkCD, if_neg (by omega), if_neg (by simp [h2])]
    rfl
  · intro k cur
    rw [walkCD_eq_map, List.length_map]

/-- Concrete buffer for the lossy-name witness: a single header whose one
name byte 0xFF is not valid UTF-8. -/
def zipBufBadName : List Nat :=
  [0x50, 0x4B, 0x01, 0x02] ++ List.replicate 24 0 ++ [1, 0] ++ [0, 0] ++ [0, 0] ++
    List.replicate 12 0 ++ [0xFF]

/-- Claim C9 (witness): the invalid name byte is decoded to the U+FFFD
replacement character and the entry is still returned, not skipped. -/
theorem lossyNameStep_witness :
    walkCD zipBufBadName 0 1 = [[replChar]] ∧
    utf8Decode [0xFF] = [replChar] ∧
    (walkCD zipBufBadName 0 1).length = (walkOffsets zipBufBadName 0 1).1.length := by
  have h := lossyNameStep zipBufBadName 0 0 (by decide) (by decide)
  exact ⟨by rw [h.1]; decide, by decide, h.2.1 1 0⟩

/-! ### The well-formed-archive postcondition -/

/-- Well-formedness of a central directory slice, following the spec's
description: starting at `off`, each of `n` headers has its 46-byte fixed
prefix in bounds, the header signature 0x02014B50, its full record
(including the name, extra-field and comment lengths read at offsets
28/30/32) in bounds, and the stated name equal to the UTF-8 decoding of
its name field; the names list has exactly one name per header, in
central-directory order. -/
def wfCD (buf : List Nat) : Nat → Nat → List (List Char) → Bool
  | _, 0, names => names.isEmpty
  | off, n + 1, names =>
    match names with
    | [] => false
    | nm :: rest =>
      decide (off + 46 ≤ buf.length) &&
      decide (readLE buf off 4 = 0x02014B50) &&
      decide (nextHeader buf off ≤ buf.length) &&
      (nm == utf8Decode (nameField buf off)) &&
      wfCD buf (nextHeader buf off) n rest

/-- The walk reproduces any well-formed names list. -/
theorem walkCD_of_wfCD (buf : List Nat) :
    ∀ n off names, wfCD buf off n names = true → walkCD buf off n = names := by
  intro n
  induction n with
  | zero =>
    intro off names h
    rw [wfCD] at h
    rw [List.isEmpty_iff] at h
    rw [h]; rfl
  | succ n ih =>
    intro off names h
    rw [wfCD.eq_def] at h
    match names with
    | [] => exact absurd h (by simp)
    | nm :: rest =>
      simp only [Bool.and_eq_true, decide_eq_true_eq, beq_iff_eq] at h
      obtain ⟨⟨⟨⟨hb, hs⟩, _⟩, hnm⟩, hrest⟩ := h
      rw [walkCD, if_neg (by omega), if_neg (by simp [hs]), hnm]
      rw [ih (nextHeader buf off) rest hrest]

/-- Claim C4 (theorem): for every buffer whose EOCD is found and whose
declared entry count and central-directory offset describe a well-formed
central directory with a given names list, the scan returns exactly that
list, in central-directory order. -/
theorem wfScan (buf : List Nat) (e : Nat) (names : List (List Char))
    (h : findEocd buf = some e)
    (hwf : wfCD buf (readLE buf (e + 16) 4) (readLE buf (e + 10) 2) names = true) :
    getZipFileList buf = names := by
  unfold getZipFileList
  rw [h]
  exact walkCD_of_wfCD buf _ _ names hwf

/-- Concrete buffer for the well-formed witness: one valid header named
"test.txt" immediately followed by a valid EOCD with entry count 1 whose
central-directory offset points at the header. -/
def zipBufOne : List Nat :=
  [0x50, 0x4B, 0x01, 0x02] ++ List.replicate 24 0 ++ [8, 0] ++ [0, 0] ++ [0, 0] ++
    List.replicate 12 0 ++ [116, 101, 115, 116, 46, 116, 120, 116] ++
  [0x50, 0x4B, 0x05, 0x06] ++ List.replicate 4 0 ++ [1, 0] ++ [1, 0] ++
    List.replicate 4 0 ++ [0, 0, 0, 0] ++ [0, 0]

/-- Claim C4 (witness): the scan of the hand-built one-entry buffer
returns exactly the single name "test.txt". -/
theorem wfScan_witness : getZipFileList zipBufOne = [("test.txt").toList] :=
  wfScan zipBufOne 54 [("test.txt").toList] (by decide) (by decide)

/-! ### Reconstructor failure behaviour -/

/-- The string the reconstructor feeds to the base64 decoder: the lines of
the text, reversed, concatenated, with every whitespace character
removed. -/
def strippedText (text : List Char) : List Char :=
  ((splitLines text).reverse.flatten).filter (fun c => !(isJsWhitespace c))

/-- Unfolding of the reconstructor through `strippedText`. -/
theorem convertTextToZipBlob_eq (text : List Char) :
    convertTextToZipBlob text =
      if strippedText text = [] then .error .emptyInput
      else
        match atob (strippedText text) with
        | some bytes => .ok bytes
        | none => .error .invalidEncoding := rfl

/-- Claim C7 (theorem): a text that is empty, or reduces to the empty
string after line splitting, reversal, concatenation and whitespace
removal, makes the reconstructor fail with the empty-input error. -/
theorem emptyInputError (text : List Char) (h : strippedText text = []) :
    convertTextToZipBlob text = .error .emptyInput := by
  rw [convertTextToZipBlob_eq, if_pos h]

/-- Claim C7 (witness): a whitespace-only two-line text strips to nothing
and fails with the empty-input error. -/
theorem emptyInputError_witness :
    convertTextToZipBlob (' ' :: '\n' :: '\t' :: []) = .error .emptyInput :=
  emptyInputError (' ' :: '\n' :: '\t' :: []) rfl

/-- Every ASCII whitespace character is also JavaScript regex whitespace,
so the reconstructor's whitespace removal subsumes the decoder's. -/
theorem asciiWs_jsWs (c : Char) (h : isAsciiWhitespace c = true) :
    isJsWhitespace c = true := by
  simp only [isAsciiWhitespace, Bool.or_eq_true, decide_eq_true_eq] at h
  simp only [isJsWhitespace, Bool.or_eq_true, Bool.and_eq_true, decide_eq_true_eq]
  omega


/-- Padding removal only drops trailing equals signs, so any character
other than the equals sign survives it. -/
theorem mem_stripPad (l : List Char) (c : Char) (hc : c ∈ l) (hne : c ≠ '=') :
    c ∈ stripPad l := by
  unfold stripPad
  split_ifs with h1 h2 h3
  · match hr : l.reverse with
    | [] => rw [hr] at h2; simp at h2
    | [x] => rw [hr] at h2; simp at h2
    | x :: y :: t =>
      rw [hr] at h2
      simp only [List.take_succ_cons, List.take_zero, List.cons.injEq, and_true] at h2
      obtain ⟨rfl, rfl⟩ := h2
      have hl : l = t.reverse ++ ['=', '='] := by
        rw [← List.reverse_reverse l, hr]
        simp
      have hdl : l.dropLast.dropLast = t.reverse := by
        rw [hl, show (['=', '='] : List Char) = ['='] ++ ['='] from rfl,
          ← List.append_assoc, List.dropLast_concat, List.dropLast_concat]
      rw [hdl]
      rw [hl] at hc
      rcases List.mem_append.mp hc with h | h
      · exact h
      · simp at h; exact absurd h hne
  · match hr : l.reverse with
    | [] => rw [hr] at h3; simp at h3
    | x :: t =>
      rw [hr] at h3
      simp only [List.take_succ_cons, List.take_zero, List.cons.injEq, and_true] at h3
      obtain rfl := h3
      have hl : l = t.reverse ++ ['='] := by
        rw [← List.reverse_reverse l, hr]
        simp
      have hdl : l.dropLast = t.reverse := by
        rw [hl, List.dropLast_concat]
      rw [hdl]
      rw [hl] at hc
      rcases List.mem_append.mp hc with h | h
      · exact h
      · simp at h; exact absurd h hne
  · exact hc
  · exact hc

/-- A character of the decoder's input that is outside the base64 alphabet,
is not the padding sign, and is not ASCII whitespace forces the forgiving
decoder to fail. -/
theorem atob_none_of_badchar (s : List Char) (c : Char) (hc : c ∈ s)
    (h1 : b64Index c = none) (h2 : c ≠ '=') (h3 : isAsciiWhitespace c = false) :
    atob s = none := by
  unfold atob
  have hcd : c ∈ s.filter (fun c => !(isAsciiWhitespace c)) :=
    List.mem_filter.mpr ⟨hc, by simp [h3]⟩
  have hcd2 : c ∈ stripPad (s.filter (fun c => !(isAsciiWhitespace c))) :=
    mem_stripPad _ c hcd h2
  by_cases hl : (stripPad (s.filter (fun c => !(isAsciiWhitespace c)))).length % 4 = 1
  · rw [if_pos hl]
  · rw [if_neg hl]
    have hall : (stripPad (s.filter (fun c => !(isAsciiWhitespace c)))).all
        (fun c => (b64Index c).isSome) = false := by
      rw [List.all_eq_false]
      exact ⟨c, hcd2, by simp [h1]⟩
    rw [hall]
    simp

/-- Claim C6 (amended, theorem): a text whose reversed, concatenated,
whitespace-stripped string is nonempty but rejected by the forgiving
base64 decoder fails with the invalid-encoding error; in particular any
character that is neither in the base64 alphabet nor the padding sign
always forces this failure. -/
theorem invalidEncodingError (text : List Char) :
    (strippedText text ≠ [] → atob (strippedText text) = none →
      convertTextToZipBlob text = .error .invalidEncoding) ∧
    (∀ c, c ∈ strippedText text → b64Index c = none → c ≠ '=' →
      convertTextToZipBlob text = .error .invalidEncoding) := by
  constructor
  · intro hne hdec
    rw [convertTextToZipBlob_eq, if_neg hne, hdec]
  · intro c hc h1 h2
    have hne : strippedText text ≠ [] := by
      intro h; rw [h] at hc; simp at hc
    have h3 : isAsciiWhitespace c = false := by
      have hmem := List.mem_filter.mp hc
      have hjs : isJsWhitespace c = false := by
        have := hmem.2; simpa using this
      by_contra hcon
      rw [asciiWs_jsWs c (by simpa using hcon)] at hjs
      exact absurd hjs (by simp)
    rw [convertTextToZipBlob_eq, if_neg hne,
      atob_none_of_badchar _ c hc h1 h2 h3]

/-- Claim C6 (witness): the two-line text of exclamation marks and at
signs strips to a nonempty string containing the at sign, which is outside
the base64 alphabet, so reconstruction fails with the invalid-encoding
error. -/
theorem invalidEncodingError_witness :
    convertTextToZipBlob (('!' :: '!' :: '!' :: '!' :: '\n' :: '@' :: '@' :: '@' :: '@' :: [])) =
      .error .invalidEncoding :=
  (invalidEncodingError _).2 '@' (by decide) (by decide) (by decide)

/-- Claim C6 (counterexample): the stripped text "QQ" is nonempty and is
not valid strict RFC 4648 base64 (its length is 2 mod 4, so its padding
and length are invalid), yet the reconstructor succeeds on it, because the
platform decoder is forgiving about missing padding. -/
theorem invalidEncodingError_cex :
    strippedText ('Q' :: 'Q' :: []) = 'Q' :: 'Q' :: [] ∧
    ('Q' :: 'Q' :: []).length % 4 = 2 ∧
    convertTextToZipBlob ('Q' :: 'Q' :: []) = .ok [65] :=
  ⟨rfl, rfl, rfl⟩

/-! ### The round trip: encode, split, reverse, reconstruct -/

/-- Modelled from the spec: the producer's standard RFC 4648 base64
encoding with padding (the producer of the obfuscated text is outside the
repository; the spec fixes its alphabet and padding). -/
def base64Encode : List Nat → List Char
  | [] => []
  | [b1] => [b64Char (b1 / 4), b64Char (b1 % 4 * 16), '=', '=']
  | [b1, b2] => [b64Char (b1 / 4), b64Char (b1 % 4 * 16 + b2 / 16), b64Char (b2 % 16 * 4), '=']
  | b1 :: b2 :: b3 :: rest =>
    [b64Char (b1 / 4), b64Char (b1 % 4 * 16 + b2 / 16), b64Char (b2 % 16 * 4 + b3 / 64),
      b64Char (b3 % 64)] ++ base64Encode rest

/-- Modelled from the spec: the producer joins the reversed lines with
linefeed line breaks to build the obfuscated text. -/
def joinNL : List (List Char) → List Char
  | [] => []
  | [x] => x
  | x :: rest => x ++ '\n' :: joinNL rest

/-- Every base64 alphabet character round-trips through its index and is
neither whitespace, padding, nor a line break. -/
theorem b64Char_spec : ∀ n, n < 64 →
    b64Index (b64Char n) = some n ∧ isJsWhitespace (b64Char n) = false ∧
    isAsciiWhitespace (b64Char n) = false ∧ b64Char n ≠ '=' ∧
    b64Char n ≠ '\n' ∧ b64Char n ≠ '\r' := by decide

/-- Characters of an encoded byte list are alphabet characters or the
padding sign. -/
theorem base64Encode_chars (B : List Nat) :
    (∀ b ∈ B, b < 256) → ∀ c ∈ base64Encode B,
      (∃ k, k < 64 ∧ c = b64Char k) ∨ c = '=' := by
  induction B using base64Encode.induct with
  | case1 => intro _ c hc; simp [base64Encode] at hc
  | case2 b1 =>
    intro hB c hc
    have h1 : b1 < 256 := hB b1 (by simp)
    simp only [base64Encode, List.mem_cons, List.not_mem_nil, or_false] at hc
    rcases hc with rfl | rfl | rfl | rfl
    · exact Or.inl ⟨b1 / 4, by omega, rfl⟩
    · exact Or.inl ⟨b1 % 4 * 16, by omega, rfl⟩
    · exact Or.inr rfl
    · exact Or.inr rfl
  | case3 b1 b2 =>
    intro hB c hc
    have h1 : b1 < 256 := hB b1 (by simp)
    have h2 : b2 < 256 := hB b2 (by simp)
    simp only [base64Encode, List.mem_cons, List.not_mem_nil, or_false] at hc
    rcases hc with rfl | rfl | rfl | rfl
    · exact Or.inl ⟨b1 / 4, by omega, rfl⟩
    · exact Or.inl ⟨b1 % 4 * 16 + b2 / 16, by omega, rfl⟩
    · exact Or.inl ⟨b2 % 16 * 4, by omega, rfl⟩
    · exact Or.inr rfl
  | case4 b1 b2 b3 rest ih =>
    intro hB c hc
    have h1 : b1 < 256 := hB b1 (by simp)
    have h2 : b2 < 256 := hB b2 (by simp)
    have h3 : b3 < 256 := hB b3 (by simp)
    rw [base64Encode] at hc
    rcases List.mem_append.mp hc with hq | hr
    · simp only [List.mem_cons, List.not_mem_nil, or_false] at hq
      rcases hq with rfl | rfl | rfl | rfl
      · exact Or.inl ⟨b1 / 4, by omega, rfl⟩
      · exact Or.inl ⟨b1 % 4 * 16 + b2 / 16, by omega, rfl⟩
      · exact Or.inl ⟨b2 % 16 * 4 + b3 / 64, by omega, rfl⟩
      · exact Or.inl ⟨b3 % 64, by omega, rfl⟩
    · exact ih (fun b hb => hB b (by simp [hb])) c hr

/-- No character of an encoded byte list is whitespace or a line break. -/
theorem base64Encode_good (B : List Nat) (hB : ∀ b ∈ B, b < 256) :
    ∀ c ∈ base64Encode B, isJsWhitespace c = false ∧ isAsciiWhitespace c = false ∧
      c ≠ '\n' ∧ c ≠ '\r' := by
  intro c hc
  rcases base64Encode_chars B hB c hc with ⟨k, hk, rfl⟩ | rfl
  · obtain ⟨_, h2, h3, _, h5, h6⟩ := b64Char_spec k hk
    exact ⟨h2, h3, h5, h6⟩
  · exact ⟨by decide, by decide, by decide, by decide⟩

/-- Encoding a nonempty byte list yields a nonempty string. -/
theorem base64Encode_ne_nil (B : List Nat) (h : B ≠ []) : base64Encode B ≠ [] := by
  match B with
  | [] => exact absurd rfl h
  | [b1] => simp [base64Encode]
  | [b1, b2] => simp [base64Encode]
  | b1 :: b2 :: b3 :: rest => simp [base64Encode]

/-- Encoding a nonempty byte list yields at least one full quantum. -/
theorem base64Encode_len4 (B : List Nat) (h : B ≠ []) : 4 ≤ (base64Encode B).length := by
  match B with
  | [] => exact absurd rfl h
  | [b1] => simp [base64Encode]
  | [b1, b2] => simp [base64Encode]
  | b1 :: b2 :: b3 :: rest => simp [base64Encode]

/-- Splitting a text that contains no linefeed yields that text as the
single line. -/
theorem splitLines_no_nl (x : List Char) (h : ∀ c ∈ x, c ≠ '\n') :
    splitLines x = [x] := by
  induction x with
  | nil => rfl
  | cons c rest ih =>
    have hc : c ≠ '\n' := h c (by simp)
    have hrest : ∀ a ∈ rest, a ≠ '\n' := fun a ha => h a (by simp [ha])
    by_cases hr : c = '\r'
    · subst hr
      rw [splitLines.eq_4]
      · rw [ih hrest]; rfl
      · intro rest1 heq
        have hmem : '\n' ∈ rest := by rw [heq]; simp
        exact hrest '\n' hmem rfl
    · rw [splitLines.eq_5 c rest (fun hh => hc hh) (fun rest1 hcr _ => hr hcr)
        (fun hh => hr hh)]
      rw [ih hrest]; rfl

/-- Splitting a line-break-free prefix followed by a linefeed peels off
that prefix as one line. -/
theorem splitLines_append (x t : List Char) (h : ∀ c ∈ x, c ≠ '\n' ∧ c ≠ '\r') :
    splitLines (x ++ '\n' :: t) = x :: splitLines t := by
  induction x with
  | nil => rw [List.nil_append, splitLines.eq_2]
  | cons c rest ih =>
    have hc := h c (by simp)
    have hrest : ∀ a ∈ rest, a ≠ '\n' ∧ a ≠ '\r' := fun a ha => h a (by simp [ha])
    rw [List.cons_append,
      splitLines.eq_5 c _ (fun hh => hc.1 hh) (fun rest1 hcr _ => hc.2 hcr)
        (fun hh => hc.2 hh),
      ih hrest]
    rfl

/-- Splitting the linefeed join of nonempty, line-break-free lines
recovers exactly those lines. -/
theorem splitLines_joinNL : ∀ M : List (List Char), M ≠ [] →
    (∀ l ∈ M, ∀ c ∈ l, c ≠ '\n' ∧ c ≠ '\r') → splitLines (joinNL M) = M := by
  intro M
  induction M with
  | nil => intro hM _; exact absurd rfl hM
  | cons x rest ih =>
    intro _ h
    match rest with
    | [] =>
      rw [show joinNL [x] = x from rfl]
      exact splitLines_no_nl x (fun c hc => (h x (by simp) c hc).1)
    | y :: rest2 =>
      rw [show joinNL (x :: y :: rest2) = x ++ '\n' :: joinNL (y :: rest2) from rfl,
        splitLines_append x _ (h x (by simp)),
        ih (by simp) (fun l hl => h l (by simp [hl]))]

/-- Padding removal commutes with prepending one full quantum, provided at
least two characters follow. -/
theorem stripPad_append (a b c d : Char) (s : List Char) (hs : 2 ≤ s.length) :
    stripPad (a :: b :: c :: d :: s) = a :: b :: c :: d :: stripPad s := by
  have hsne : s ≠ [] := by intro hh; rw [hh] at hs; simp at hs
  have hdne : s.dropLast ≠ [] := by
    intro hh
    have := congrArg List.length hh
    rw [List.length_dropLast] at this
    simp at this
    omega
  have hlen : (a :: b :: c :: d :: s).length % 4 = s.length % 4 := by
    simp only [List.length_cons]
    omega
  have hrev : (a :: b :: c :: d :: s).reverse = s.reverse ++ [d, c, b, a] := by simp
  have ht2 : (a :: b :: c :: d :: s).reverse.take 2 = s.reverse.take 2 := by
    rw [hrev, List.take_append_of_le_length (by simp; omega)]
  have ht1 : (a :: b :: c :: d :: s).reverse.take 1 = s.reverse.take 1 := by
    rw [hrev, List.take_append_of_le_length (by simp; omega)]
  have hd1 : (a :: b :: c :: d :: s).dropLast = a :: b :: c :: d :: s.dropLast := by
    rw [List.dropLast_cons_of_ne_nil (by simp), List.dropLast_cons_of_ne_nil (by simp),
      List.dropLast_cons_of_ne_nil (by simp [hsne]), List.dropLast_cons_of_ne_nil hsne]
  have hd2 : (a :: b :: c :: d :: s.dropLast).dropLast =
      a :: b :: c :: d :: s.dropLast.dropLast := by
    rw [List.dropLast_cons_of_ne_nil (by simp), List.dropLast_cons_of_ne_nil (by simp),
      List.dropLast_cons_of_ne_nil (by simp [hdne]), List.dropLast_cons_of_ne_nil hdne]
  unfold stripPad
  simp only [hlen, ht2, ht1]
  split_ifs
  · rw [hd1, hd2]
  · rw [hd1]
  · rfl
  · rfl

/-- Decoding one full quantum of sextets recovers the three source
bytes. -/
theorem quantum_inv (b1 b2 b3 : Nat) (h1 : b1 < 256) (h2 : b2 < 256) (h3 : b3 < 256) :
    b64DecodeQuantum [b1 / 4, b1 % 4 * 16 + b2 / 16, b2 % 16 * 4 + b3 / 64, b3 % 64] =
      [b1, b2, b3] := by
  simp only [b64DecodeQuantum, List.cons.injEq, and_true]
  refine ⟨by omega, by omega, by omega⟩

/-- After padding removal, the encoding of a byte list has a permissible
length, only alphabet characters, and decodes back to the original
bytes. -/
theorem base64Encode_decode (B : List Nat) :
    (∀ b ∈ B, b < 256) →
      (stripPad (base64Encode B)).length % 4 ≠ 1 ∧
      (∀ c ∈ stripPad (base64Encode B), (b64Index c).isSome = true) ∧
      b64DecodeSextets ((stripPad (base64Encode B)).map (fun c => (b64Index c).getD 0)) = B := by
  induction B using base64Encode.induct with
  | case1 =>
    intro _
    refine ⟨by simp [base64Encode, stripPad], ?_, by simp [base64Encode, stripPad]; rfl⟩
    intro c hc
    simp [base64Encode, stripPad] at hc
  | case2 b1 =>
    intro hB
    have h1 : b1 < 256 := hB b1 (by simp)
    have hi1 := b64Char_spec (b1 / 4) (by omega)
    have hi2 := b64Char_spec (b1 % 4 * 16) (by omega)
    have hstrip : stripPad (base64Encode [b1]) =
        [b64Char (b1 / 4), b64Char (b1 % 4 * 16)] := by
      rw [show base64Encode [b1] =
        [b64Char (b1 / 4), b64Char (b1 % 4 * 16), '=', '='] from rfl]
      unfold stripPad
      rw [if_pos (by simp), if_pos (by simp)]
      rfl
    rw [hstrip]
    refine ⟨by simp, ?_, ?_⟩
    · intro c hc
      simp only [List.mem_cons, List.not_mem_nil, or_false] at hc
      rcases hc with rfl | rfl
      · simp [hi1.1]
      · simp [hi2.1]
    · simp only [List.map_cons, List.map_nil, hi1.1, hi2.1, Option.getD_some]
      show b64DecodeQuantum [b1 / 4, b1 % 4 * 16] = [b1]
      simp only [b64DecodeQuantum, List.cons.injEq, and_true]
      omega
  | case3 b1 b2 =>
    intro hB
    have h1 : b1 < 256 := hB b1 (by simp)
    have h2 : b2 < 256 := hB b2 (by simp)
    have hi1 := b64Char_spec (b1 / 4) (by omega)
    have hi2 := b64Char_spec (b1 % 4 * 16 + b2 / 16) (by omega)
    have hi3 := b64Char_spec (b2 % 16 * 4) (by omega)
    have hstrip : stripPad (base64Encode [b1, b2]) =
        [b64Char (b1 / 4), b64Char (b1 % 4 * 16 + b2 / 16), b64Char (b2 % 16 * 4)] := by
      rw [show base64Encode [b1, b2] =
        [b64Char (b1 / 4), b64Char (b1 % 4 * 16 + b2 / 16), b64Char (b2 % 16 * 4), '='] from rfl]
      unfold stripPad
      rw [if_pos (by simp), if_neg (by simp [hi3.2.2.2.1]), if_pos (by simp)]
      rfl
    rw [hstrip]
    refine ⟨by simp, ?_, ?_⟩
    · intro c hc
      simp only [List.mem_cons, List.not_mem_nil, or_false] at hc
      rcases hc with rfl | rfl | rfl
      · simp [hi1.1]
      · simp [hi2.1]
      · simp [hi3.1]
    · simp only [List.map_cons, List.map_nil, hi1.1, hi2.1, hi3.1, Option.getD_some]
      show b64DecodeQuantum [b1 / 4, b1 % 4 * 16 + b2 / 16, b2 % 16 * 4] = [b1, b2]
      simp only [b64DecodeQuantum, List.cons.injEq, and_true]
      omega
  | case4 b1 b2 b3 rest ih =>
    intro hB
    have h1 : b1 < 256 := hB b1 (by simp)
    have h2 : b2 < 256 := hB b2 (by simp)
    have h3 : b3 < 256 := hB b3 (by simp)
    have hi1 := b64Char_spec (b1 / 4) (by omega)
    have hi2 := b64Char_spec (b1 % 4 * 16 + b2 / 16) (by omega)
    have hi3 := b64Char_spec (b2 % 16 * 4 + b3 / 64) (by omega)
    have hi4 := b64Char_spec (b3 % 64) (by omega)
    obtain ⟨H1, H2, H3⟩ := ih (fun b hb => hB b (by simp [hb]))
    have henc : base64Encode (b1 :: b2 :: b3 :: rest) =
        b64Char (b1 / 4) :: b64Char (b1 % 4 * 16 + b2 / 16) ::
        b64Char (b2 % 16 * 4 + b3 / 64) :: b64Char (b3 % 64) :: base64Encode rest := rfl
    match rest with
    | [] =>
      have henc3 : base64Encode [b1, b2, b3] =
          [b64Char (b1 / 4), b64Char (b1 % 4 * 16 + b2 / 16),
            b64Char (b2 % 16 * 4 + b3 / 64), b64Char (b3 % 64)] := rfl
      have hstrip : stripPad (base64Encode [b1, b2, b3]) = base64Encode [b1, b2, b3] := by
        rw [henc3]
        unfold stripPad
        rw [if_pos (by simp), if_neg (by simp [hi4.2.2.2.1]),
          if_neg (by simp [hi4.2.2.2.1])]
      rw [hstrip, henc3]
      refine ⟨by simp, ?_, ?_⟩
      · intro c hc
        simp only [List.mem_cons, List.not_mem_nil, or_false] at hc
        rcases hc with rfl | rfl | rfl | rfl
        · simp [hi1.1]
        · simp [hi2.1]
        · simp [hi3.1]
        · simp [hi4.1]
      · simp only [List.map_cons, List.map_nil, hi1.1, hi2.1, hi3.1, hi4.1,
          Option.getD_some]
        rw [show ∀ s1 s2 s3 s4 : Nat, b64DecodeSextets [s1, s2, s3, s4] =
            b64DecodeQuantum [s1, s2, s3, s4] ++ [] from fun s1 s2 s3 s4 => rfl]
        rw [List.append_nil, quantum_inv b1 b2 b3 h1 h2 h3]
    | r :: rs =>
      have hrne : (r :: rs : List Nat) ≠ [] := by simp
      have hlen4 := base64Encode_len4 (r :: rs) hrne
      have hstrip : stripPad (base64Encode (b1 :: b2 :: b3 :: r :: rs)) =
          b64Char (b1 / 4) :: b64Char (b1 % 4 * 16 + b2 / 16) ::
          b64Char (b2 % 16 * 4 + b3 / 64) :: b64Char (b3 % 64) ::
          stripPad (base64Encode (r :: rs)) := by
        rw [henc, stripPad_append _ _ _ _ _ (by omega)]
      rw [hstrip]
      refine ⟨by simp only [List.length_cons]; omega, ?_, ?_⟩
      · intro c hc
        simp only [List.mem_cons] at hc
        rcases hc with rfl | rfl | rfl | rfl | hmem
        · simp [hi1.1]
        · simp [hi2.1]
        · simp [hi3.1]
        · simp [hi4.1]
        · exact H2 c hmem
      · simp only [List.map_cons, hi1.1, hi2.1, hi3.1, hi4.1, Option.getD_some]
        rw [show ∀ s1 s2 s3 s4 t, b64DecodeSextets (s1 :: s2 :: s3 :: s4 :: t) =
            b64DecodeQuantum [s1, s2, s3, s4] ++ b64DecodeSextets t from fun _ _ _ _ _ => rfl]
        rw [quantum_inv b1 b2 b3 h1 h2 h3, H3]
        rfl

/-- The forgiving decoder inverts the standard encoding. -/
theorem atob_base64Encode (B : List Nat) (hB : ∀ b ∈ B, b < 256) :
    atob (base64Encode B) = some B := by
  obtain ⟨H1, H2, H3⟩ := base64Encode_decode B hB
  have hfilter : (base64Encode B).filter (fun c => !(isAsciiWhitespace c)) = base64Encode B := by
    rw [List.filter_eq_self]
    intro c hc
    simp [(base64Encode_good B hB c hc).2.1]
  have hall : (stripPad (base64Encode B)).all (fun c => (b64Index c).isSome) = true := by
    rw [List.all_eq_true]
    intro c hc
    exact H2 c hc
  show (if (stripPad ((base64Encode B).filter (fun c => !(isAsciiWhitespace c)))).length % 4 = 1
      then none
      else if (stripPad ((base64Encode B).filter (fun c => !(isAsciiWhitespace c)))).all
          (fun c => (b64Index c).isSome) = true then
        some (b64DecodeSextets ((stripPad ((base64Encode B).filter
          (fun c => !(isAsciiWhitespace c)))).map (fun c => (b64Index c).getD 0)))
      else none) = some B
  rw [hfilter, if_neg H1, if_pos hall, H3]

/-- Claim C1 (amended, theorem): round trip for nonempty byte sequences.
If a nonempty byte sequence is base64-encoded, the encoding is split into
one or more lines in forward order, and the lines are joined in reversed
order with linefeed separators, then the reconstructor succeeds on the
joined text and returns exactly the original bytes. -/
theorem roundTrip (B : List Nat) (hB : ∀ b ∈ B, b < 256) (hBne : B ≠ [])
    (L : List (List Char)) (hLne : L ≠ []) (hjoin : L.flatten = base64Encode B) :
    convertTextToZipBlob (joinNL L.reverse) = .ok B := by
  have hchars : ∀ l ∈ L.reverse, ∀ c ∈ l, c ≠ '\n' ∧ c ≠ '\r' := by
    intro l hl c hc
    have hmem : c ∈ L.flatten := List.mem_flatten.mpr ⟨l, List.mem_reverse.mp hl, hc⟩
    rw [hjoin] at hmem
    have hg := base64Encode_good B hB c hmem
    exact ⟨hg.2.2.1, hg.2.2.2⟩
  have hsplit : splitLines (joinNL L.reverse) = L.reverse :=
    splitLines_joinNL L.reverse (by simpa using hLne) hchars
  have hstr : strippedText (joinNL L.reverse) = base64Encode B := by
    unfold strippedText
    rw [hsplit, List.reverse_reverse, hjoin, List.filter_eq_self]
    intro c hc
    simp [(base64Encode_good B hB c hc).1]
  rw [convertTextToZipBlob_eq, hstr,
    if_neg (base64Encode_ne_nil B hBne), atob_base64Encode B hB]

/-- Claim C1 (witness): the bytes of "ABCFGH" encode to "QUJDRkdI"; split
as the two lines "QUJD" and "RkdI" and joined in reversed order, the text
reconstructs to exactly those bytes (the spec's concrete scenario 3). -/
theorem roundTrip_witness :
    convertTextToZipBlob
        ('R' :: 'k' :: 'd' :: 'I' :: '\n' :: 'Q' :: 'U' :: 'J' :: 'D' :: []) =
      .ok [65, 66, 67, 70, 71, 72] := by
  have h := roundTrip [65, 66, 67, 70, 71, 72] (by decide) (by decide)
    [['Q', 'U', 'J', 'D'], ['R', 'k', 'd', 'I']] (by decide) (by decide)
  exact h

/-- Claim C1 (counterexample): the claim fails for the empty byte
sequence.  Its encoding is the empty string, whose only line split is the
single empty line; the joined text is empty and the reconstructor reports
the empty-input error instead of returning the empty byte sequence. -/
theorem roundTrip_cex :
    ([[]] : List (List Char)) ≠ [] ∧
    ([[]] : List (List Char)).flatten = base64Encode [] ∧
    convertTextToZipBlob (joinNL ([[]] : List (List Char)).reverse) = .error .emptyInput ∧
    convertTextToZipBlob (joinNL ([[]] : List (List Char)).reverse) ≠ .ok ([] : List Nat) := by
  refine ⟨by simp, rfl, rfl, ?_⟩
  intro h
  rw [show convertTextToZipBlob (joinNL ([[]] : List (List Char)).reverse) =
    .error .emptyInput from rfl] at h
  exact Except.noConfusion h
